import Mathlib

/-!
# fileinv: the file inventory scanner (`src/file_scanner.c`)

A shallow embedding of the scanner and a verification of its specification.

Conventions of the embedding.

* A C string is the list of the characters before its terminating NUL.
* `DWORD` values are natural numbers; `__int64` arithmetic is done on `Int` and wrapped by
  `wrap64` wherever the C expression can leave the 64-bit range.
* The SQLite table `files` is the list of its rows in insertion order. The three prepared
  statements are functions on that list; statements are assumed to execute successfully.
* The directory tree is the tree of answers that `FindFirstFile`/`FindNextFile` give during
  one run: every entry carries its `WIN32_FIND_DATA` and the listing obtained when
  `scan_directory` is called on it (`none` for `INVALID_HANDLE_VALUE`).
-/

namespace FileScanner

/-! ## Constants of the Windows headers and of the program -/

/-- The macro `DB_NAME` of the source. -/
def DB_NAME : List Char := "file_inventory.db".toList

/-- The constant `MAX_PATH` of `windows.h`. -/
def MAX_PATH : Nat := 260

def FILE_ATTRIBUTE_READONLY : Nat := 0x1
def FILE_ATTRIBUTE_HIDDEN : Nat := 0x2
def FILE_ATTRIBUTE_SYSTEM : Nat := 0x4
def FILE_ATTRIBUTE_DIRECTORY : Nat := 0x10
def FILE_ATTRIBUTE_ARCHIVE : Nat := 0x20
def FILE_ATTRIBUTE_NORMAL : Nat := 0x80

/-- The largest value of `size_t` (64-bit build). -/
def SIZE_MAX : Nat := 2 ^ 64 - 1

/-- Reduction of an integer to the range of `__int64` (two's complement wrap-around). -/
def wrap64 (x : Int) : Int := (x + 2 ^ 63) % 2 ^ 64 - 2 ^ 63

/-! ## Platform data -/

structure FILETIME where
  dwLowDateTime : Nat
  dwHighDateTime : Nat
deriving DecidableEq, Repr

structure WIN32_FIND_DATA where
  dwFileAttributes : Nat
  ftCreationTime : FILETIME
  ftLastAccessTime : FILETIME
  ftLastWriteTime : FILETIME
  nFileSizeHigh : Nat
  nFileSizeLow : Nat
  cFileName : List Char
deriving DecidableEq, Repr

/-- One entry returned by `FindFirstFile`/`FindNextFile`, together with the listing that a
recursive call of `scan_directory` on this entry obtains (`none`: the directory cannot be
opened). The listing of an entry that is not a directory is never looked at. -/
inductive Node where
  | mk (find_data : WIN32_FIND_DATA) (listing : Option (List Node))

/-! ## The attribute encoder and the time normalizer -/

/-- The function `tolower` of the C locale. -/
def tolower (c : Char) : Char :=
  if 'A' ≤ c ∧ c ≤ 'Z' then Char.ofNat (c.toNat + 32) else c

/-- The function `strrchr`: offset of the last occurrence of `c` in `s`, if any. -/
def strrchr : List Char → Char → Option Nat
  | [], _ => none
  | x :: xs, c =>
    match strrchr xs c with
    | some i => some (i + 1)
    | none => if x = c then some 0 else none

/-- The copy loop of `get_file_extension`: `while (*src && i < ext_size - 1)`, where `bound`
is the value of `ext_size - 1`. -/
def copy_lower (bound : Nat) : List Char → Nat → List Char
  | [], _ => []
  | c :: src, i => if i < bound then tolower c :: copy_lower bound src (i + 1) else []

/-- The function `get_file_extension`; the result is the content left in `extension`. -/
def get_file_extension (filename : List Char) (ext_size : Nat) : List Char :=
  match strrchr filename '.' with
  | some dot =>
    if dot ≠ 0 then
      copy_lower ((ext_size + SIZE_MAX) % (SIZE_MAX + 1)) (filename.drop (dot + 1)) 0
    else []
  | none => []

/-- The function `get_file_attributes_string`; the result is the content left in `attr_str`.
At most six characters and the terminator are written, the walker passes a buffer of 32. -/
def get_file_attributes_string (attrs : Nat) : List Char :=
  (if attrs &&& FILE_ATTRIBUTE_READONLY ≠ 0 then ['R'] else []) ++
  (if attrs &&& FILE_ATTRIBUTE_HIDDEN ≠ 0 then ['H'] else []) ++
  (if attrs &&& FILE_ATTRIBUTE_SYSTEM ≠ 0 then ['S'] else []) ++
  (if attrs &&& FILE_ATTRIBUTE_DIRECTORY ≠ 0 then ['D'] else []) ++
  (if attrs &&& FILE_ATTRIBUTE_ARCHIVE ≠ 0 then ['A'] else []) ++
  (if attrs &&& FILE_ATTRIBUTE_NORMAL ≠ 0 then ['N'] else [])

/-- The function `filetime_to_unix_time`. C division truncates toward zero. -/
def filetime_to_unix_time (ft : FILETIME) : Int :=
  let ll := wrap64 ((ft.dwHighDateTime : Int) * 2 ^ 32 + ft.dwLowDateTime)
  wrap64 (Int.tdiv (wrap64 (ll - 116444736000000000)) 10000000)

/-! ## The store -/

/-- A row of the table `files` created by `create_tables`. -/
structure Record where
  id : Nat
  name : List Char
  path : List Char
  extension : List Char
  size : Int
  is_directory : Int
  created_time : Int
  modified_time : Int
  accessed_time : Int
  attributes : List Char
  is_deleted : Int
  last_seen : Int
deriving DecidableEq, Repr

/-- The table `files`: its rows in insertion order. -/
abbrev Store := List Record

/-- The row id that `INTEGER PRIMARY KEY AUTOINCREMENT` gives to the next inserted row.
No statement of the program deletes rows, so it is one more than the largest id in use. -/
def next_id (db : Store) : Nat := (db.map (·.id)).foldr max 0 + 1

/-- The statement `update_sql` on one row. -/
def update_row (size modified_time accessed_time : Int) (attributes : List Char)
    (last_seen : Int) (path : List Char) (r : Record) : Record :=
  if r.path = path then
    { r with size := size, modified_time := modified_time, accessed_time := accessed_time,
             attributes := attributes, is_deleted := 0, last_seen := last_seen }
  else r

/-- The statement `update_sql`:
`UPDATE files SET size = ?, modified_time = ?, accessed_time = ?, attributes = ?,
is_deleted = 0, last_seen = ? WHERE path = ?`. -/
def update_stmt (db : Store) (size modified_time accessed_time : Int) (attributes : List Char)
    (last_seen : Int) (path : List Char) : Store :=
  db.map (update_row size modified_time accessed_time attributes last_seen path)

/-- The value of `sqlite3_changes` after `update_stmt`: the number of rows matched by
`WHERE path = ?`. -/
def update_changes (db : Store) (path : List Char) : Nat :=
  db.countP (fun r => r.path = path)

/-- The statement `insert_sql`; the column `is_deleted` takes its default 0. -/
def insert_stmt (db : Store) (name path extension : List Char) (size is_directory
    created_time modified_time accessed_time : Int) (attributes : List Char)
    (last_seen : Int) : Store :=
  db ++ [{ id := next_id db, name := name, path := path, extension := extension,
           size := size, is_directory := is_directory, created_time := created_time,
           modified_time := modified_time, accessed_time := accessed_time,
           attributes := attributes, is_deleted := 0, last_seen := last_seen }]

/-- The statement `mark_deleted_sql` on one row. -/
def mark_deleted_row (scan_time : Int) (r : Record) : Record :=
  if r.last_seen < scan_time ∧ r.is_deleted = 0 then { r with is_deleted := 1 } else r

/-- The statement `mark_deleted_sql`:
`UPDATE files SET is_deleted = 1 WHERE last_seen < ? AND is_deleted = 0`. -/
def mark_deleted_stmt (db : Store) (scan_time : Int) : Store :=
  db.map (mark_deleted_row scan_time)

/-! ## The walker and the reconciler -/

/-- The call `snprintf(buf, size, "%s", s)`: at most `size - 1` characters are stored. -/
def snprintf (size : Nat) (s : List Char) : List Char := s.take (size - 1)

/-- The buffer `full_path` of `scan_directory` (line 106). -/
def full_path (path name : List Char) : List Char :=
  snprintf MAX_PATH (path ++ '\\' :: name)

/-- The test of lines 100 to 104: the entry is skipped by the walker. -/
def skipped (name : List Char) : Bool :=
  (name = ['.'] || name = ['.', '.']) || name = DB_NAME

/-- The directory bit of an entry. -/
def is_dir (find_data : WIN32_FIND_DATA) : Bool :=
  find_data.dwFileAttributes &&& FILE_ATTRIBUTE_DIRECTORY ≠ 0

/-- The expression for `file_size` (line 110). -/
def file_size (find_data : WIN32_FIND_DATA) : Int :=
  wrap64 ((find_data.nFileSizeHigh : Int) * 2 ^ 32 + find_data.nFileSizeLow)

/-- The reconcile step of `scan_directory` (lines 107 to 145) for one entry, given the
content of `full_path`: update the rows at that path, insert a row if none was changed. -/
def reconcile (db : Store) (full_path : List Char) (find_data : WIN32_FIND_DATA)
    (scan_time : Int) : Store :=
  let extension := get_file_extension find_data.cFileName 256
  let attr_str := get_file_attributes_string find_data.dwFileAttributes
  let file_size := file_size find_data
  let created_time := filetime_to_unix_time find_data.ftCreationTime
  let modified_time := filetime_to_unix_time find_data.ftLastWriteTime
  let accessed_time := filetime_to_unix_time find_data.ftLastAccessTime
  let db1 := update_stmt db file_size modified_time accessed_time attr_str scan_time full_path
  if update_changes db full_path = 0 then
    insert_stmt db1 find_data.cFileName full_path extension file_size
      (if find_data.dwFileAttributes &&& FILE_ATTRIBUTE_DIRECTORY ≠ 0 then 1 else 0)
      created_time modified_time accessed_time attr_str scan_time
  else db1

mutual
/-- The function `scan_directory`, on the listing that `FindFirstFile` returns for the
pattern built in `search_path` (`none`: `INVALID_HANDLE_VALUE`, the function returns). -/
def scan_directory (db : Store) (path : List Char) (scan_time : Int) :
    Option (List Node) → Store
  | none => db
  | some entries => scan_entries db path scan_time entries
/-- The `do ... while (FindNextFile ...)` loop of `scan_directory`. -/
def scan_entries (db : Store) (path : List Char) (scan_time : Int) : List Node → Store
  | [] => db
  | e :: rest => scan_entries (scan_entry db path scan_time e) path scan_time rest
/-- One iteration of the loop of `scan_directory`. -/
def scan_entry (db : Store) (path : List Char) (scan_time : Int) : Node → Store
  | Node.mk find_data listing =>
    if find_data.cFileName = ['.'] ∨ find_data.cFileName = ['.', '.'] then db
    else if find_data.cFileName = DB_NAME then db
    else
      let full := full_path path find_data.cFileName
      let db1 := reconcile db full find_data scan_time
      if find_data.dwFileAttributes &&& FILE_ATTRIBUTE_DIRECTORY ≠ 0 then
        scan_directory db1 full scan_time listing
      else db1
end

/-- The function `main` as a store transformer: the walk from `"."`, then, in refresh mode,
the stale-marking statement, with the one `scan_time` of the run. -/
def main (refresh_mode : Bool) (root : Option (List Node)) (scan_time : Int) (db : Store) :
    Store :=
  let db1 := scan_directory db ['.'] scan_time root
  if refresh_mode then mark_deleted_stmt db1 scan_time else db1

/-! ## The entries a walk reconciles -/

mutual
/-- The entries that `scan_directory` reconciles on a listing, in order: the content of
`full_path` and the find data of each. It follows the control flow of `scan_directory`. -/
def observed (path : List Char) : Option (List Node) → List (List Char × WIN32_FIND_DATA)
  | none => []
  | some entries => observed_entries path entries
/-- The entries reconciled by the loop of `scan_directory`. -/
def observed_entries (path : List Char) : List Node → List (List Char × WIN32_FIND_DATA)
  | [] => []
  | e :: rest => observed_entry path e ++ observed_entries path rest
/-- The entries reconciled by one iteration of the loop of `scan_directory`. -/
def observed_entry (path : List Char) : Node → List (List Char × WIN32_FIND_DATA)
  | Node.mk find_data listing =>
    if find_data.cFileName = ['.'] ∨ find_data.cFileName = ['.', '.'] then []
    else if find_data.cFileName = DB_NAME then []
    else
      let full := full_path path find_data.cFileName
      (full, find_data) ::
        (if find_data.dwFileAttributes &&& FILE_ATTRIBUTE_DIRECTORY ≠ 0 then
          observed full listing
        else [])
end

/-- The paths reconciled by a walk from `path`. -/
def observed_paths (path : List Char) (listing : Option (List Node)) : List (List Char) :=
  (observed path listing).map (·.1)

/-- The reconcile step applied to a sequence of entries, left to right. -/
def reconcile_all (db : Store) (obs : List (List Char × WIN32_FIND_DATA)) (scan_time : Int) :
    Store :=
  obs.foldl (fun db o => reconcile db o.1 o.2 scan_time) db

/-- The paths of the rows of a store. -/
def paths (db : Store) : List (List Char) := db.map (·.path)

/-! ## Runs of the program -/

/-- One run of the program: the mode flag, the tree found under `"."`, the value of
`time(NULL)`. -/
structure Scan where
  refresh_mode : Bool
  root : Option (List Node)
  scan_time : Int

/-- Successive runs of the program on the same store. -/
def run (db : Store) (scans : List Scan) : Store :=
  scans.foldl (fun db s => main s.refresh_mode s.root s.scan_time db) db

/-! ## Vocabulary of the specification: positions in a tree, removal, expected coverage -/

/-- The find data of an entry. -/
def Node.find_data : Node → WIN32_FIND_DATA
  | Node.mk find_data _ => find_data

/-- The listing obtained on an entry. -/
def Node.listing : Node → Option (List Node)
  | Node.mk _ listing => listing

/-- The path under which the walker reconciles the entry at position `idx` of a listing
(`idx` gives the index in the listing, then the index in the sublisting, and so on); `none`
when there is no such entry or the walker does not reach it. -/
def locate : List Nat → List Char → List Node → Option (List Char)
  | [], _, _ => none
  | i :: js, path, l =>
    match js, l.drop i with
    | [], Node.mk find_data _ :: _ =>
      if skipped find_data.cFileName then none
      else some (full_path path find_data.cFileName)
    | _ :: _, Node.mk find_data (some sub) :: _ =>
      if skipped find_data.cFileName ∨ ¬ is_dir find_data then none
      else locate js (full_path path find_data.cFileName) sub
    | _, _ => none

/-- The listing with the entry at position `idx` (and everything below it) removed. -/
def remove_at : List Nat → List Node → List Node
  | [], l => l
  | i :: js, l =>
    match js, l.drop i with
    | [], _ :: rest => l.take i ++ rest
    | _ :: _, Node.mk find_data (some sub) :: rest =>
      l.take i ++ Node.mk find_data (some (remove_at js sub)) :: rest
    | _, _ => l

/-- The parent path joined with an entry name by a backslash. -/
def join_path (path name : List Char) : List Char := path ++ '\\' :: name

mutual
/-- The coverage as the specification words it: every entry at any depth other than the
pseudo-entries and other than the file `file_inventory.db` located in the scan root, each
with its joined path; every subdirectory is descended into. -/
def claimed (in_root : Bool) (path : List Char) : Option (List Node) → List (List Char × Node)
  | none => []
  | some entries => claimed_entries in_root path entries
/-- The part of `claimed` for the entries of one listing. -/
def claimed_entries (in_root : Bool) (path : List Char) : List Node → List (List Char × Node)
  | [] => []
  | e :: rest => claimed_entry in_root path e ++ claimed_entries in_root path rest
/-- The part of `claimed` for one entry and what lies below it. -/
def claimed_entry (in_root : Bool) (path : List Char) : Node → List (List Char × Node)
  | Node.mk find_data listing =>
    if find_data.cFileName = ['.'] ∨ find_data.cFileName = ['.', '.'] then []
    else if in_root = true ∧ find_data.cFileName = DB_NAME then []
    else
      (join_path path find_data.cFileName, Node.mk find_data listing) ::
        (if is_dir find_data then claimed false (join_path path find_data.cFileName) listing
        else [])
end

mutual
/-- The coverage with the store file excluded by name at every depth: every entry other than
the pseudo-entries and the entries named `file_inventory.db`, not below such an entry, each
with its joined path; every subdirectory among them is descended into. -/
def walked (path : List Char) : Option (List Node) → List (List Char × Node)
  | none => []
  | some entries => walked_entries path entries
/-- The part of `walked` for the entries of one listing. -/
def walked_entries (path : List Char) : List Node → List (List Char × Node)
  | [] => []
  | e :: rest => walked_entry path e ++ walked_entries path rest
/-- The part of `walked` for one entry and what lies below it. -/
def walked_entry (path : List Char) : Node → List (List Char × Node)
  | Node.mk find_data listing =>
    if find_data.cFileName = ['.'] ∨ find_data.cFileName = ['.', '.'] ∨
        find_data.cFileName = DB_NAME then []
    else
      (join_path path find_data.cFileName, Node.mk find_data listing) ::
        (if is_dir find_data then walked (join_path path find_data.cFileName) listing
        else [])
end

/-- Every directory among the given entries can be listed. -/
def all_listable (es : List (List Char × Node)) : Prop :=
  ∀ x ∈ es, is_dir x.2.find_data = true → x.2.listing.isSome = true

instance (es : List (List Char × Node)) : Decidable (all_listable es) := by
  unfold all_listable; infer_instance

/-- Every joined path among the given entries fits the buffer `full_path`. -/
def all_fit (es : List (List Char × Node)) : Prop :=
  ∀ x ∈ es, x.1.length < MAX_PATH

instance (es : List (List Char × Node)) : Decidable (all_fit es) := by
  unfold all_fit; infer_instance

/-- The path and the find data under which an entry of a coverage list is reconciled. -/
def as_observation (x : List Char × Node) : List Char × WIN32_FIND_DATA :=
  (x.1, x.2.find_data)

/-- A row agrees with the values the reconcile step derives from an entry for the columns
written by the update statement. -/
def refreshed (find_data : WIN32_FIND_DATA) (scan_time : Int) (r : Record) : Prop :=
  r.size = file_size find_data ∧
  r.modified_time = filetime_to_unix_time find_data.ftLastWriteTime ∧
  r.accessed_time = filetime_to_unix_time find_data.ftLastAccessTime ∧
  r.attributes = get_file_attributes_string find_data.dwFileAttributes ∧
  r.is_deleted = 0 ∧ r.last_seen = scan_time

/-- The effect of a repeated observation on the rows at the given paths: only `last_seen`
moves. -/
def touch (ps : List (List Char)) (t : Int) (r : Record) : Record :=
  if r.path ∈ ps then { r with last_seen := t } else r

/-! ## Example data -/

/-- Find data with the given name, attribute word and size, all three times being
1970-01-01T00:00:00Z. -/
def example_entry (name : String) (attrs size : Nat) : WIN32_FIND_DATA :=
  { dwFileAttributes := attrs
    ftCreationTime := ⟨3577643008, 27111902⟩
    ftLastAccessTime := ⟨3577643008, 27111902⟩
    ftLastWriteTime := ⟨3577643008, 27111902⟩
    nFileSizeHigh := 0
    nFileSizeLow := size
    cFileName := name.toList }

/-- An archived file. -/
def example_file (name : String) (size : Nat) : Node :=
  Node.mk (example_entry name FILE_ATTRIBUTE_ARCHIVE size) none

/-- A listing as `FindFirstFile`/`FindNextFile` give it: the pseudo-entries `"."` and `".."`
first, then the given entries. -/
def example_listing (entries : List Node) : List Node :=
  Node.mk (example_entry "." FILE_ATTRIBUTE_DIRECTORY 0) none ::
    Node.mk (example_entry ".." FILE_ATTRIBUTE_DIRECTORY 0) none :: entries

/-- A directory that can be listed, holding the given entries. -/
def example_dir (name : String) (entries : List Node) : Node :=
  Node.mk (example_entry name FILE_ATTRIBUTE_DIRECTORY 0) (some (example_listing entries))

/-- The listing of a scan root: the pseudo-entries, the store file that `sqlite3_open` and
`create_tables` have created before the walk, then the given entries. -/
def example_root (entries : List Node) : List Node :=
  example_listing (example_file "file_inventory.db" 4096 :: entries)

/-- A name of 258 bytes, `"a."` followed by 128 two-byte characters (bytes 0x82 0xA0 of a
double-byte code page): 130 characters for the file system. -/
def example_long_name : List Char :=
  'a' :: '.' :: (List.replicate 128 [Char.ofNat 0x82, Char.ofNat 0xA0]).flatten

/-- The row of a file of 7 bytes first seen at time 5. -/
def example_row (id : Nat) (name path : String) : Record :=
  { id := id, name := name.toList, path := path.toList, extension := [], size := 7,
    is_directory := 0, created_time := 0, modified_time := 0, accessed_time := 0,
    attributes := ['A'], is_deleted := 0, last_seen := 5 }

/-! ## Lemmas on the statements and the reconcile step -/

theorem update_changes_eq_zero (db : Store) (p : List Char) :
    update_changes db p = 0 ↔ p ∉ paths db := by
  simp [update_changes, paths, List.countP_eq_zero]

theorem update_row_path (a b c : Int) (d : List Char) (e : Int) (p : List Char) (r : Record) :
    (update_row a b c d e p r).path = r.path := by
  unfold update_row; split <;> rfl

theorem update_row_of_ne (a b c : Int) (d : List Char) (e : Int) (p : List Char) (r : Record)
    (h : r.path ≠ p) : update_row a b c d e p r = r := by
  unfold update_row; simp [h]

theorem paths_update_stmt (db : Store) (a b c : Int) (d : List Char) (e : Int) (p : List Char) :
    paths (update_stmt db a b c d e p) = paths db := by
  simp [paths, update_stmt, List.map_map, Function.comp_def, update_row_path]

theorem update_stmt_of_not_mem (db : Store) (a b c : Int) (d : List Char) (e : Int)
    (p : List Char) (h : p ∉ paths db) : update_stmt db a b c d e p = db := by
  unfold update_stmt
  conv_rhs => rw [← List.map_id db]
  apply List.map_congr_left
  intro r hr
  apply update_row_of_ne
  intro he
  exact h (by rw [← he]; exact List.mem_map_of_mem _ hr)

theorem paths_mark_deleted_stmt (db : Store) (t : Int) :
    paths (mark_deleted_stmt db t) = paths db := by
  simp only [paths, mark_deleted_stmt, List.map_map]
  apply List.map_congr_left
  intro r _
  simp only [Function.comp, mark_deleted_row]
  split <;> rfl

/-- The row the insert statement adds in the reconcile step. -/
theorem reconcile_of_not_mem (db : Store) (p : List Char) (fd : WIN32_FIND_DATA) (t : Int)
    (h : p ∉ paths db) :
    reconcile db p fd t = db ++ [
      { id := next_id db, name := fd.cFileName, path := p,
        extension := get_file_extension fd.cFileName 256, size := file_size fd,
        is_directory := if fd.dwFileAttributes &&& FILE_ATTRIBUTE_DIRECTORY ≠ 0 then 1 else 0,
        created_time := filetime_to_unix_time fd.ftCreationTime,
        modified_time := filetime_to_unix_time fd.ftLastWriteTime,
        accessed_time := filetime_to_unix_time fd.ftLastAccessTime,
        attributes := get_file_attributes_string fd.dwFileAttributes,
        is_deleted := 0, last_seen := t }] := by
  have h0 : update_changes db p = 0 := (update_changes_eq_zero db p).2 h
  simp only [reconcile, h0, if_true, insert_stmt, update_stmt_of_not_mem _ _ _ _ _ _ _ h]

theorem reconcile_of_mem (db : Store) (p : List Char) (fd : WIN32_FIND_DATA) (t : Int)
    (h : p ∈ paths db) :
    reconcile db p fd t = db.map (update_row (file_size fd)
      (filetime_to_unix_time fd.ftLastWriteTime) (filetime_to_unix_time fd.ftLastAccessTime)
      (get_file_attributes_string fd.dwFileAttributes) t p) := by
  have h0 : update_changes db p ≠ 0 := fun h0 => (update_changes_eq_zero db p).1 h0 h
  simp only [reconcile, h0, if_false, update_stmt]

theorem paths_reconcile (db : Store) (p : List Char) (fd : WIN32_FIND_DATA) (t : Int) :
    paths (reconcile db p fd t) = if p ∈ paths db then paths db else paths db ++ [p] := by
  by_cases h : p ∈ paths db
  · rw [reconcile_of_mem db p fd t h, if_pos h]
    exact paths_update_stmt _ _ _ _ _ _ _
  · rw [reconcile_of_not_mem db p fd t h, if_neg h]
    simp [paths]

theorem mem_paths_reconcile (db : Store) (p : List Char) (fd : WIN32_FIND_DATA) (t : Int) :
    p ∈ paths (reconcile db p fd t) := by
  rw [paths_reconcile]; split
  · assumption
  · simp

theorem paths_subset_reconcile (db : Store) (p : List Char) (fd : WIN32_FIND_DATA) (t : Int)
    (q : List Char) (h : q ∈ paths db) : q ∈ paths (reconcile db p fd t) := by
  rw [paths_reconcile]; split
  · assumption
  · simp [h]

theorem nodup_paths_reconcile (db : Store) (p : List Char) (fd : WIN32_FIND_DATA) (t : Int)
    (h : (paths db).Nodup) : (paths (reconcile db p fd t)).Nodup := by
  rw [paths_reconcile]; split
  · assumption
  · rename_i hp
    rw [List.nodup_append]
    refine ⟨h, List.nodup_singleton _, ?_⟩
    intro a ha hb
    simp at hb
    exact hp (hb ▸ ha)

theorem filter_update_row_of_ne (db : Store) (a b c : Int) (d : List Char) (e : Int)
    (p q : List Char) (h : q ≠ p) :
    (db.map (update_row a b c d e p)).filter (fun r => r.path = q) =
      db.filter (fun r => r.path = q) := by
  induction db with
  | nil => rfl
  | cons r db ih =>
    by_cases hr : r.path = p
    · have h1 : ¬ (update_row a b c d e p r).path = q := by
        rw [update_row_path, hr]; exact Ne.symm h
      have h2 : ¬ r.path = q := by rw [hr]; exact Ne.symm h
      simp only [List.map_cons, List.filter_cons, h1, h2, decide_False, ih]
      simp
    · rw [List.map_cons, update_row_of_ne _ _ _ _ _ _ _ hr, List.filter_cons, List.filter_cons, ih]

theorem filter_reconcile_of_ne (db : Store) (p q : List Char) (fd : WIN32_FIND_DATA) (t : Int)
    (h : q ≠ p) :
    (reconcile db p fd t).filter (fun r => r.path = q) = db.filter (fun r => r.path = q) := by
  by_cases hp : p ∈ paths db
  · rw [reconcile_of_mem db p fd t hp]
    exact filter_update_row_of_ne _ _ _ _ _ _ _ _ h
  · rw [reconcile_of_not_mem db p fd t hp, List.filter_append]
    simp [Ne.symm h]

theorem refreshed_update_row (fd : WIN32_FIND_DATA) (t : Int) (p : List Char) (r : Record)
    (h : r.path = p) :
    refreshed fd t (update_row (file_size fd) (filetime_to_unix_time fd.ftLastWriteTime)
      (filetime_to_unix_time fd.ftLastAccessTime)
      (get_file_attributes_string fd.dwFileAttributes) t p r) := by
  simp [update_row, h, refreshed]

theorem refreshed_reconcile (db : Store) (p : List Char) (fd : WIN32_FIND_DATA) (t : Int)
    (r : Record) (hr : r ∈ reconcile db p fd t) (hp : r.path = p) : refreshed fd t r := by
  by_cases h : p ∈ paths db
  · rw [reconcile_of_mem db p fd t h, List.mem_map] at hr
    obtain ⟨r0, _, rfl⟩ := hr
    rw [update_row_path] at hp
    exact refreshed_update_row fd t p r0 hp
  · rw [reconcile_of_not_mem db p fd t h, List.mem_append] at hr
    rcases hr with hr | hr
    · exact absurd (by rw [← hp]; exact List.mem_map_of_mem _ hr) h
    · simp only [List.mem_singleton] at hr
      subst hr
      simp [refreshed]

/-! ### Sequences of reconcile steps -/

theorem reconcile_all_nil (db : Store) (t : Int) : reconcile_all db [] t = db := rfl

theorem reconcile_all_cons (db : Store) (o : List Char × WIN32_FIND_DATA)
    (obs : List (List Char × WIN32_FIND_DATA)) (t : Int) :
    reconcile_all db (o :: obs) t = reconcile_all (reconcile db o.1 o.2 t) obs t := rfl

theorem reconcile_all_append (db : Store) (a b : List (List Char × WIN32_FIND_DATA)) (t : Int) :
    reconcile_all db (a ++ b) t = reconcile_all (reconcile_all db a t) b t := by
  simp [reconcile_all, List.foldl_append]

theorem nodup_paths_reconcile_all (obs : List (List Char × WIN32_FIND_DATA)) (t : Int) :
    ∀ db : Store, (paths db).Nodup → (paths (reconcile_all db obs t)).Nodup := by
  induction obs with
  | nil => intro db h; exact h
  | cons o obs ih =>
    intro db h
    rw [reconcile_all_cons]
    exact ih _ (nodup_paths_reconcile db o.1 o.2 t h)

theorem paths_subset_reconcile_all (obs : List (List Char × WIN32_FIND_DATA)) (t : Int)
    (q : List Char) : ∀ db : Store, q ∈ paths db → q ∈ paths (reconcile_all db obs t) := by
  induction obs with
  | nil => intro db h; exact h
  | cons o obs ih =>
    intro db h
    rw [reconcile_all_cons]
    exact ih _ (paths_subset_reconcile db o.1 o.2 t q h)

theorem mem_paths_reconcile_all (obs : List (List Char × WIN32_FIND_DATA)) (t : Int)
    (q : List Char) (hq : q ∈ obs.map (·.1)) :
    ∀ db : Store, q ∈ paths (reconcile_all db obs t) := by
  induction obs with
  | nil => simp at hq
  | cons o obs ih =>
    intro db
    rw [reconcile_all_cons]
    rw [List.map_cons, List.mem_cons] at hq
    rcases hq with hq | hq
    · subst hq
      exact paths_subset_reconcile_all obs t _ _ (mem_paths_reconcile db o.1 o.2 t)
    · exact ih hq _

theorem filter_reconcile_all_of_not_mem (obs : List (List Char × WIN32_FIND_DATA)) (t : Int)
    (q : List Char) (hq : q ∉ obs.map (·.1)) :
    ∀ db : Store, (reconcile_all db obs t).filter (fun r => r.path = q) =
      db.filter (fun r => r.path = q) := by
  induction obs with
  | nil => intro db; rfl
  | cons o obs ih =>
    intro db
    rw [List.map_cons, List.mem_cons, not_or] at hq
    rw [reconcile_all_cons, ih hq.2, filter_reconcile_of_ne db o.1 q o.2 t hq.1]

theorem mem_of_mem_reconcile_all (obs : List (List Char × WIN32_FIND_DATA)) (t : Int)
    (db : Store) (r : Record) (hq : r.path ∉ obs.map (·.1)) :
    r ∈ reconcile_all db obs t ↔ r ∈ db := by
  have h := filter_reconcile_all_of_not_mem obs t r.path hq db
  constructor
  · intro hr
    have : r ∈ (reconcile_all db obs t).filter (fun x => x.path = r.path) := by
      simp [List.mem_filter, hr]
    rw [h] at this
    exact (List.mem_filter.1 this).1
  · intro hr
    have : r ∈ db.filter (fun x => x.path = r.path) := by
      simp [List.mem_filter, hr]
    rw [← h] at this
    exact (List.mem_filter.1 this).1

/-- After a sequence of reconcile steps with pairwise distinct paths, every row at an
observed path carries the values derived from that observation. -/
theorem refreshed_reconcile_all (obs : List (List Char × WIN32_FIND_DATA)) (t : Int)
    (hn : (obs.map (·.1)).Nodup) :
    ∀ db : Store, ∀ o ∈ obs, ∀ r ∈ reconcile_all db obs t, r.path = o.1 → refreshed o.2 t r := by
  induction obs with
  | nil => intro db o ho; simp at ho
  | cons o1 obs ih =>
    intro db o ho r hr hp
    rw [List.map_cons, List.nodup_cons] at hn
    rw [reconcile_all_cons] at hr
    rw [List.mem_cons] at ho
    rcases ho with ho | ho
    · subst ho
      have hq : r.path ∉ obs.map (·.1) := by rw [hp]; exact hn.1
      rw [mem_of_mem_reconcile_all obs t _ r hq] at hr
      exact refreshed_reconcile db o.1 o.2 t r hr hp
    · exact ih hn.2 _ o ho r hr hp

/-- After a sequence of reconcile steps, every row at an observed path is live and was last
seen at the time of the sequence (no distinctness of the paths is needed). -/
theorem live_reconcile_all (obs : List (List Char × WIN32_FIND_DATA)) (t : Int) :
    ∀ db : Store, ∀ r ∈ reconcile_all db obs t, r.path ∈ obs.map (·.1) →
      r.is_deleted = 0 ∧ r.last_seen = t := by
  induction obs with
  | nil => intro db r _ hp; simp at hp
  | cons o1 obs ih =>
    intro db r hr hp
    rw [reconcile_all_cons] at hr
    by_cases hq : r.path ∈ obs.map (·.1)
    · exact ih _ r hr hq
    · rw [mem_of_mem_reconcile_all obs t _ r hq] at hr
      rw [List.map_cons, List.mem_cons] at hp
      rcases hp with hp | hp
      · have := refreshed_reconcile db o1.1 o1.2 t r hr hp
        exact ⟨this.2.2.2.2.1, this.2.2.2.2.2⟩
      · exact absurd hp hq

/-! ## The walker reconciles the observed entries -/

mutual
theorem scan_directory_eq (db : Store) (path : List Char) (t : Int) :
    ∀ l : Option (List Node), scan_directory db path t l = reconcile_all db (observed path l) t
  | none => by simp [scan_directory, observed, reconcile_all]
  | some es => by
    rw [scan_directory, observed]
    exact scan_entries_eq db path t es
theorem scan_entries_eq (db : Store) (path : List Char) (t : Int) :
    ∀ es : List Node, scan_entries db path t es = reconcile_all db (observed_entries path es) t
  | [] => by simp [scan_entries, observed_entries, reconcile_all]
  | e :: rest => by
    rw [scan_entries, observed_entries, reconcile_all_append, scan_entry_eq db path t e]
    exact scan_entries_eq _ path t rest
theorem scan_entry_eq (db : Store) (path : List Char) (t : Int) :
    ∀ e : Node, scan_entry db path t e = reconcile_all db (observed_entry path e) t
  | Node.mk fd l => by
    rw [scan_entry, observed_entry]
    split
    · simp [reconcile_all]
    · split
      · simp [reconcile_all]
      · split
        · rw [scan_directory_eq _ _ t l]
          simp [reconcile_all]
        · simp [reconcile_all]
end

/-! ## Positions in a tree and removal of an entry -/

theorem observed_entries_cons (path : List Char) (e : Node) (rest : List Node) :
    observed_entries path (e :: rest) = observed_entry path e ++ observed_entries path rest := by
  rw [observed_entries]

theorem observed_entries_append (path : List Char) (l1 l2 : List Node) :
    observed_entries path (l1 ++ l2) = observed_entries path l1 ++ observed_entries path l2 := by
  induction l1 with
  | nil => simp [observed_entries]
  | cons e l1 ih => rw [List.cons_append, observed_entries_cons, observed_entries_cons, ih,
      List.append_assoc]

theorem observed_entry_of_not_skipped (path : List Char) (fd : WIN32_FIND_DATA)
    (l : Option (List Node)) (h : skipped fd.cFileName = false) :
    observed_entry path (Node.mk fd l) =
      (full_path path fd.cFileName, fd) ::
        (if is_dir fd then observed (full_path path fd.cFileName) l else []) := by
  simp only [skipped, Bool.or_eq_false_iff, decide_eq_false_iff_not] at h
  rw [observed_entry]
  simp [h.1.1, h.1.2, h.2, is_dir]

theorem locate_last (i : Nat) (path : List Char) (l : List Node) (fd : WIN32_FIND_DATA)
    (sub : Option (List Node)) (rest : List Node) (hd : l.drop i = Node.mk fd sub :: rest) :
    locate [i] path l =
      if skipped fd.cFileName then none else some (full_path path fd.cFileName) := by
  conv_lhs => rw [locate.eq_def]
  simp only [hd]

theorem locate_below (i j : Nat) (js : List Nat) (path : List Char) (l : List Node)
    (fd : WIN32_FIND_DATA) (sub : List Node) (rest : List Node)
    (hd : l.drop i = Node.mk fd (some sub) :: rest) :
    locate (i :: j :: js) path l =
      if skipped fd.cFileName ∨ ¬ is_dir fd then none
      else locate (j :: js) (full_path path fd.cFileName) sub := by
  conv_lhs => rw [locate.eq_def]
  simp only [hd]

theorem remove_at_last (i : Nat) (l : List Node) (e : Node) (rest : List Node)
    (hd : l.drop i = e :: rest) : remove_at [i] l = l.take i ++ rest := by
  conv_lhs => rw [remove_at.eq_def]
  simp only [hd]

theorem remove_at_below (i j : Nat) (js : List Nat) (l : List Node)
    (fd : WIN32_FIND_DATA) (sub : List Node) (rest : List Node)
    (hd : l.drop i = Node.mk fd (some sub) :: rest) :
    remove_at (i :: j :: js) l =
      l.take i ++ Node.mk fd (some (remove_at (j :: js) sub)) :: rest := by
  conv_lhs => rw [remove_at.eq_def]
  simp only [hd]

/-- The observations of a listing split around the entry at a located position, and removing
the entry removes its observation and those below it. -/
theorem locate_split (idx : List Nat) :
    ∀ (path : List Char) (l : List Node) (p : List Char), locate idx path l = some p →
      ∃ (A B C : List (List Char × WIN32_FIND_DATA)) (fd : WIN32_FIND_DATA),
        observed_entries path l = A ++ (p, fd) :: C ++ B ∧
        observed_entries path (remove_at idx l) = A ++ B := by
  induction idx with
  | nil => intro path l p h; simp [locate] at h
  | cons i js ih =>
    intro path l p h
    have hl : l = l.take i ++ l.drop i := (List.take_append_drop i l).symm
    cases js with
    | nil =>
      cases hd : l.drop i with
      | nil => simp [locate, hd] at h
      | cons e rest =>
        obtain ⟨fd, sub⟩ := e
        rw [locate_last i path l fd sub rest hd] at h
        by_cases hs : skipped fd.cFileName = true
        · simp [hs] at h
        · simp only [hs, Bool.false_eq_true, if_false, Option.some.injEq] at h
          simp only [Bool.not_eq_true] at hs
          refine ⟨observed_entries path (l.take i), observed_entries path rest,
            if is_dir fd then observed (full_path path fd.cFileName) sub else [], fd, ?_, ?_⟩
          · conv_lhs => rw [hl, hd]
            rw [observed_entries_append, observed_entries_cons,
              observed_entry_of_not_skipped path fd sub hs, h]
            simp
          · rw [remove_at_last i l _ rest hd, observed_entries_append]
    | cons j js2 =>
      cases hd : l.drop i with
      | nil => simp [locate, hd] at h
      | cons e rest =>
        obtain ⟨fd, sub⟩ := e
        cases sub with
        | none => simp [locate, hd] at h
        | some sub =>
          rw [locate_below i j js2 path l fd sub rest hd] at h
          by_cases hs : skipped fd.cFileName = true ∨ ¬ is_dir fd = true
          · rw [if_pos hs] at h; exact absurd h (by simp)
          · rw [if_neg hs] at h
            rw [not_or, not_not, Bool.not_eq_true] at hs
            obtain ⟨A, B, C, fd2, h1, h2⟩ := ih (full_path path fd.cFileName) sub p h
            refine ⟨observed_entries path (l.take i) ++
                (full_path path fd.cFileName, fd) :: A,
              B ++ observed_entries path rest, C, fd2, ?_, ?_⟩
            · conv_lhs => rw [hl, hd]
              rw [observed_entries_append, observed_entries_cons,
                observed_entry_of_not_skipped path fd (some sub) hs.1, if_pos hs.2, observed, h1]
              simp
            · rw [remove_at_below i j js2 l fd sub rest hd]
              rw [observed_entries_append, observed_entries_cons,
                observed_entry_of_not_skipped path fd _ hs.1, if_pos hs.2, observed, h2]
              simp

/-! ## Runs of the program: the paths held by the store -/

theorem main_eq (m : Bool) (root : Option (List Node)) (t : Int) (db : Store) :
    main m root t db =
      if m then mark_deleted_stmt (reconcile_all db (observed ['.'] root) t) t
      else reconcile_all db (observed ['.'] root) t := by
  simp only [main, scan_directory_eq]

theorem paths_main (m : Bool) (root : Option (List Node)) (t : Int) (db : Store) :
    paths (main m root t db) = paths (reconcile_all db (observed ['.'] root) t) := by
  rw [main_eq]
  cases m
  · rfl
  · exact paths_mark_deleted_stmt _ _

theorem countP_path_eq_zero (db : Store) (q : List Char) (h : q ∉ paths db) :
    db.countP (fun r => r.path = q) = 0 := by
  rw [List.countP_eq_zero]
  intro r hr he
  simp only [decide_eq_true_eq] at he
  exact h (he ▸ List.mem_map_of_mem _ hr)

theorem countP_path_pos (db : Store) (q : List Char) (h : q ∈ paths db) :
    0 < db.countP (fun r => r.path = q) := by
  rw [List.countP_pos_iff]
  obtain ⟨r, hr, he⟩ := List.mem_map.1 h
  exact ⟨r, hr, by simpa using he⟩

theorem nodup_paths_iff (db : Store) :
    (paths db).Nodup ↔ ∀ q, db.countP (fun r => r.path = q) ≤ 1 := by
  induction db with
  | nil => simp [paths]
  | cons r db ih =>
    have hp : paths (r :: db) = r.path :: paths db := rfl
    rw [hp, List.nodup_cons, ih]
    constructor
    · rintro ⟨h1, h2⟩ q
      rw [List.countP_cons]
      by_cases hq : r.path = q
      · subst hq
        rw [countP_path_eq_zero db _ h1]; simp
      · have := h2 q
        simpa [hq] using this
    · intro h
      constructor
      · intro hm
        have h1 := h r.path
        have h2 := countP_path_pos db _ hm
        rw [List.countP_cons, if_pos (by simp)] at h1
        omega
      · intro q
        have h1 := h q
        rw [List.countP_cons] at h1
        omega

theorem countP_path_eq_one (db : Store) (q : List Char) (hn : (paths db).Nodup)
    (h : q ∈ paths db) : db.countP (fun r => r.path = q) = 1 := by
  have h1 := (nodup_paths_iff db).1 hn q
  have h2 := countP_path_pos db q h
  omega

theorem nodup_paths_run (scans : List Scan) :
    ∀ db : Store, (paths db).Nodup → (paths (run db scans)).Nodup := by
  induction scans with
  | nil => intro db h; exact h
  | cons s scans ih =>
    intro db h
    apply ih
    rw [paths_main]
    exact nodup_paths_reconcile_all _ _ _ h

theorem paths_subset_run (scans : List Scan) (q : List Char) :
    ∀ db : Store, q ∈ paths db → q ∈ paths (run db scans) := by
  induction scans with
  | nil => intro db h; exact h
  | cons s scans ih =>
    intro db h
    apply ih
    rw [paths_main]
    exact paths_subset_reconcile_all _ _ _ _ h

theorem mem_paths_run (scans : List Scan) (q : List Char)
    (h : ∃ s ∈ scans, q ∈ observed_paths ['.'] s.root) :
    ∀ db : Store, q ∈ paths (run db scans) := by
  induction scans with
  | nil => obtain ⟨s, hs, _⟩ := h; simp at hs
  | cons s0 scans ih =>
    intro db
    obtain ⟨s, hs, hq⟩ := h
    rw [List.mem_cons] at hs
    rcases hs with hs | hs
    · subst hs
      show q ∈ paths (run (main s.refresh_mode s.root s.scan_time db) scans)
      apply paths_subset_run
      rw [paths_main]
      exact mem_paths_reconcile_all _ _ _ hq _
    · exact ih ⟨s, hs, hq⟩ _

/-! ## The reconciler -/

/-- C4: one reconcile step for an entry with full path p at scan time t. If the store holds a
row with path p, no row is added, every row with path p gets the size, modified time,
accessed time and attribute string derived from the entry, is_deleted = 0 and last_seen = t
(its other columns are kept), and every other row is unchanged; if the store holds no row
with path p, exactly one row is appended, with name, path, extension, size, is_directory,
created, modified and accessed time and attributes derived from the entry, is_deleted = 0 and
last_seen = t, and all existing rows are unchanged. -/
theorem C4_reconcile_postcondition (db : Store) (p : List Char) (fd : WIN32_FIND_DATA)
    (t : Int) :
    ((∃ r ∈ db, r.path = p) →
      (reconcile db p fd t).length = db.length ∧
      ∀ (i : Nat) (r : Record), db[i]? = some r →
        (r.path = p → (reconcile db p fd t)[i]? = some
          { r with size := file_size fd,
                   modified_time := filetime_to_unix_time fd.ftLastWriteTime,
                   accessed_time := filetime_to_unix_time fd.ftLastAccessTime,
                   attributes := get_file_attributes_string fd.dwFileAttributes,
                   is_deleted := 0, last_seen := t }) ∧
        (r.path ≠ p → (reconcile db p fd t)[i]? = some r)) ∧
    ((¬ ∃ r ∈ db, r.path = p) →
      reconcile db p fd t = db ++ [
        { id := next_id db, name := fd.cFileName, path := p,
          extension := get_file_extension fd.cFileName 256,
          size := file_size fd,
          is_directory := if is_dir fd then 1 else 0,
          created_time := filetime_to_unix_time fd.ftCreationTime,
          modified_time := filetime_to_unix_time fd.ftLastWriteTime,
          accessed_time := filetime_to_unix_time fd.ftLastAccessTime,
          attributes := get_file_attributes_string fd.dwFileAttributes,
          is_deleted := 0, last_seen := t }]) := by
  have hmem : (∃ r ∈ db, r.path = p) ↔ p ∈ paths db := by simp [paths]
  rw [hmem]
  constructor
  · intro h
    rw [reconcile_of_mem db p fd t h]
    refine ⟨by simp, ?_⟩
    intro i r hi
    rw [List.getElem?_map, hi]
    constructor
    · intro hp; simp [update_row, hp]
    · intro hp; simp [update_row, hp]
  · intro h
    rw [reconcile_of_not_mem db p fd t h]
    simp [is_dir]

/-- An instance of C4: an entry reconciled against a store that holds its path, and against
the empty store. -/
theorem C4_reconcile_postcondition_witness :
    (reconcile [example_row 1 "a" ".\\a"] ".\\a".toList (example_entry "a" 0x21 9) 8).length
      = 1 ∧
    reconcile [] ".\\a".toList (example_entry "a" 0x21 9) 8 =
      [{ id := 1, name := ['a'], path := ".\\a".toList, extension := [], size := 9,
         is_directory := 0, created_time := 0, modified_time := 0, accessed_time := 0,
         attributes := ['R', 'A'], is_deleted := 0, last_seen := 8 }] :=
  ⟨((C4_reconcile_postcondition [example_row 1 "a" ".\\a"] ".\\a".toList
      (example_entry "a" 0x21 9) 8).1 ⟨example_row 1 "a" ".\\a", by decide, by decide⟩).1,
   ((C4_reconcile_postcondition [] ".\\a".toList (example_entry "a" 0x21 9) 8).2
      (by decide)).trans (by decide)⟩

/-! ## Path uniqueness -/

/-- C2: from the empty store, after any sequence of scans (either mode, any trees, any
timestamps) the store holds exactly one row for every path observed in one of the scans and
at most one row for any path; the reconcile step (update, then insert if no row changed)
preserves "at most one row per path". Distinctness of the paths within a tree is not
needed. -/
theorem C2_path_uniqueness (scans : List Scan) :
    (∀ P : List Char, (∃ s ∈ scans, P ∈ observed_paths ['.'] s.root) →
      (run [] scans).countP (fun r => r.path = P) = 1) ∧
    (∀ q : List Char, (run [] scans).countP (fun r => r.path = q) ≤ 1) ∧
    (∀ (db : Store) (p : List Char) (fd : WIN32_FIND_DATA) (t : Int),
      (∀ q : List Char, db.countP (fun r => r.path = q) ≤ 1) →
      ∀ q : List Char, (reconcile db p fd t).countP (fun r => r.path = q) ≤ 1) := by
  have hn : (paths (run [] scans)).Nodup := nodup_paths_run scans [] List.nodup_nil
  refine ⟨?_, (nodup_paths_iff _).1 hn, ?_⟩
  · intro P h
    exact countP_path_eq_one _ P hn (mem_paths_run scans P h [])
  · intro db p fd t h
    exact (nodup_paths_iff _).1 (nodup_paths_reconcile db p fd t ((nodup_paths_iff db).2 h))

/-- An instance of C2: a path scanned three times, the last time after the file became a
directory, has one row. -/
theorem C2_path_uniqueness_witness :
    (run [] [⟨false, some (example_root [example_file "x" 7]), 5⟩,
      ⟨true, some (example_root [example_file "x" 8]), 5⟩,
      ⟨true, some (example_root [example_dir "x" [example_file "y" 1]]), 6⟩]).countP
        (fun r => r.path = ".\\x".toList) = 1 :=
  (C2_path_uniqueness [⟨false, some (example_root [example_file "x" 7]), 5⟩,
      ⟨true, some (example_root [example_file "x" 8]), 5⟩,
      ⟨true, some (example_root [example_dir "x" [example_file "y" 1]]), 6⟩]).1 ".\\x".toList
    ⟨⟨false, some (example_root [example_file "x" 7]), 5⟩, by simp, by decide⟩

/-! ## Stale marking -/

theorem mark_deleted_row_path (t : Int) (r : Record) : (mark_deleted_row t r).path = r.path := by
  unfold mark_deleted_row; split <;> rfl

theorem mark_deleted_row_of_not_lt (t : Int) (r : Record) (h : ¬ r.last_seen < t) :
    mark_deleted_row t r = r := by
  unfold mark_deleted_row; simp [h]

theorem mark_deleted_row_of_live (t : Int) (r : Record) (h1 : r.last_seen < t)
    (h2 : r.is_deleted = 0) : mark_deleted_row t r = { r with is_deleted := 1 } := by
  unfold mark_deleted_row; simp [h1, h2]

theorem mem_paths_main (m : Bool) (root : Option (List Node)) (t : Int) (db : Store)
    (q : List Char) (h : q ∈ observed_paths ['.'] root) : q ∈ paths (main m root t db) := by
  rw [paths_main]
  exact mem_paths_reconcile_all _ _ _ h _

theorem paths_subset_main (m : Bool) (root : Option (List Node)) (t : Int) (db : Store)
    (q : List Char) (h : q ∈ paths db) : q ∈ paths (main m root t db) := by
  rw [paths_main]
  exact paths_subset_reconcile_all _ _ _ _ h

/-- After a scan in either mode, the rows at the observed paths are live and last seen at the
time of the scan. -/
theorem live_main (m : Bool) (root : Option (List Node)) (t : Int) (db : Store) :
    ∀ r ∈ main m root t db, r.path ∈ observed_paths ['.'] root →
      r.is_deleted = 0 ∧ r.last_seen = t := by
  intro r hr hp
  rw [main_eq] at hr
  cases m
  · exact live_reconcile_all _ t db r hr hp
  · simp only [if_true, mark_deleted_stmt, List.mem_map] at hr
    obtain ⟨r0, hr0, rfl⟩ := hr
    rw [mark_deleted_row_path] at hp
    have h := live_reconcile_all _ t db r0 hr0 hp
    rw [mark_deleted_row_of_not_lt t r0 (by rw [h.2]; exact lt_irrefl t)]
    exact h

/-- After a refresh scan, a row at a path that was not observed is the stale-marked image of
a row the store held before the scan. -/
theorem stale_main (root : Option (List Node)) (t : Int) (db : Store) :
    ∀ r ∈ main true root t db, r.path ∉ observed_paths ['.'] root →
      ∃ r0 ∈ db, r = mark_deleted_row t r0 := by
  intro r hr hp
  rw [main_eq] at hr
  simp only [if_true, mark_deleted_stmt, List.mem_map] at hr
  obtain ⟨r0, hr0, rfl⟩ := hr
  rw [mark_deleted_row_path] at hp
  exact ⟨r0, (mem_of_mem_reconcile_all _ t db r0 hp).1 hr0, rfl⟩

theorem exists_of_mem_paths (db : Store) (q : List Char) (h : q ∈ paths db) :
    ∃ r ∈ db, r.path = q := by
  obtain ⟨r, hr, he⟩ := List.mem_map.1 h
  exact ⟨r, hr, he⟩

theorem not_mem_of_nodup_split (A B C : List (List Char × WIN32_FIND_DATA))
    (x : List Char × WIN32_FIND_DATA) (h : ((A ++ x :: C ++ B).map (·.1)).Nodup) :
    x.1 ∉ (A ++ B).map (·.1) := by
  rw [List.map_append, List.nodup_append] at h
  obtain ⟨h1, _, h3⟩ := h
  rw [List.map_append, List.nodup_append] at h1
  obtain ⟨_, _, h6⟩ := h1
  intro hm
  rw [List.map_append, List.mem_append] at hm
  have hx : x.1 ∈ (x :: C).map (·.1) := List.mem_map_of_mem _ (List.mem_cons_self _ _)
  rcases hm with hm | hm
  · exact h6 hm hx
  · exact h3 (by rw [List.map_append]; exact List.mem_append_right _ hx) hm

/-- C1 (amended): for every store, every tree whose reconciled paths are pairwise distinct,
every entry f of the tree that the walker reconciles (under path p) and all scan times
t1 < t2: after a scan of the tree at t1 (either mode) and a refresh scan at t2 of the tree
with f removed, there is a row with path p, every row with path p has is_deleted = 1 and
last_seen = t1, and every entry that the second walk reconciles has a row, all its rows
having is_deleted = 0. -/
theorem C1_stale_marking (db : Store) (T : List Node) (idx : List Nat) (p : List Char)
    (m : Bool) (t1 t2 : Int)
    (hf : locate idx ['.'] T = some p)
    (hn : (observed_paths ['.'] (some T)).Nodup)
    (ht : t1 < t2) :
    (∃ r ∈ main true (some (remove_at idx T)) t2 (main m (some T) t1 db), r.path = p) ∧
    (∀ r ∈ main true (some (remove_at idx T)) t2 (main m (some T) t1 db), r.path = p →
      r.is_deleted = 1 ∧ r.last_seen = t1) ∧
    (∀ q ∈ observed_paths ['.'] (some (remove_at idx T)),
      (∃ r ∈ main true (some (remove_at idx T)) t2 (main m (some T) t1 db), r.path = q) ∧
      ∀ r ∈ main true (some (remove_at idx T)) t2 (main m (some T) t1 db), r.path = q →
        r.is_deleted = 0) := by
  obtain ⟨A, B, C, fd, h1, h2⟩ := locate_split idx ['.'] T p hf
  have hp1 : p ∈ observed_paths ['.'] (some T) := by
    rw [observed_paths, observed, h1]
    exact List.mem_map.2 ⟨(p, fd), List.mem_append_left _
      (List.mem_append_right _ (List.mem_cons_self _ _)), rfl⟩
  have hp2 : p ∉ observed_paths ['.'] (some (remove_at idx T)) := by
    rw [observed_paths, observed, h1] at hn
    rw [observed_paths, observed, h2]
    exact not_mem_of_nodup_split A B C (p, fd) hn
  refine ⟨?_, ?_, ?_⟩
  · exact exists_of_mem_paths _ p
      (paths_subset_main _ _ _ _ p (mem_paths_main m (some T) t1 db p hp1))
  · intro r hr hp
    obtain ⟨r0, hr0, rfl⟩ := stale_main _ t2 _ r hr (by rw [hp]; exact hp2)
    rw [mark_deleted_row_path] at hp
    have hl := live_main m (some T) t1 db r0 hr0 (by rw [hp]; exact hp1)
    rw [mark_deleted_row_of_live t2 r0 (by rw [hl.2]; exact ht) hl.1]
    exact ⟨rfl, hl.2⟩
  · intro q hq
    refine ⟨exists_of_mem_paths _ q (mem_paths_main true _ t2 _ q hq), ?_⟩
    intro r hr hp
    exact (live_main true _ t2 _ r hr (by rw [hp]; exact hq)).1

/-- An instance of C1: the scenario of the specification, the nested file being removed; its
row is the only one marked deleted. -/
theorem C1_stale_marking_witness :
    locate [4, 2] ['.'] (example_root [example_file "a" 7,
      example_dir "sub" [example_file "b" 1]]) = some ".\\sub\\b".toList ∧
    (main true (some (remove_at [4, 2]
        (example_root [example_file "a" 7, example_dir "sub" [example_file "b" 1]]))) 6
      (main false (some (example_root [example_file "a" 7,
        example_dir "sub" [example_file "b" 1]])) 5 [])).map
          (fun r => (r.path, r.is_deleted, r.last_seen)) =
      [(".\\a".toList, 0, 6), (".\\sub".toList, 0, 6), (".\\sub\\b".toList, 1, 5)] ∧
    ∃ r ∈ main true (some (remove_at [4, 2]
        (example_root [example_file "a" 7, example_dir "sub" [example_file "b" 1]]))) 6
      (main false (some (example_root [example_file "a" 7,
        example_dir "sub" [example_file "b" 1]])) 5 []),
      r.path = ".\\sub\\b".toList :=
  ⟨by decide, by decide,
    (C1_stale_marking [] (example_root [example_file "a" 7,
      example_dir "sub" [example_file "b" 1]]) [4, 2]
      ".\\sub\\b".toList false 5 6 (by decide) (by decide) (by decide)).1⟩

/-- C1 as stated fails in two ways. With t1 = t2 the row of the removed file is not marked:
stale marking compares last_seen < scan_time strictly. And an entry named
file_inventory.db below the root, still present at the second scan, has no row at all. -/
theorem C1_stale_marking_fails :
    (locate [3] ['.'] (example_root [example_file "a" 7]) = some ".\\a".toList ∧
      (observed_paths ['.'] (some (example_root [example_file "a" 7]))).Nodup ∧
      (5 : Int) ≤ 5 ∧
      main true (some (remove_at [3] (example_root [example_file "a" 7]))) 5
        (main false (some (example_root [example_file "a" 7])) 5 []) =
        [{ id := 1, name := ['a'], path := ".\\a".toList, extension := [], size := 7,
           is_directory := 0, created_time := 0, modified_time := 0, accessed_time := 0,
           attributes := ['A'], is_deleted := 0, last_seen := 5 }] ∧
      ¬ ∀ r ∈ main true (some (remove_at [3] (example_root [example_file "a" 7]))) 5
          (main false (some (example_root [example_file "a" 7])) 5 []),
        r.path = ".\\a".toList → r.is_deleted = 1 ∧ r.last_seen = 5) ∧
    (locate [3, 2] ['.'] (example_root [example_dir "sub"
        [example_file "a" 7, example_file "file_inventory.db" 3]]) =
        some ".\\sub\\a".toList ∧
      remove_at [3, 2] (example_root [example_dir "sub"
        [example_file "a" 7, example_file "file_inventory.db" 3]]) =
        example_root [example_dir "sub" [example_file "file_inventory.db" 3]] ∧
      (observed_paths ['.'] (some (example_root [example_dir "sub"
        [example_file "a" 7, example_file "file_inventory.db" 3]]))).Nodup ∧
      (5 : Int) < 6 ∧
      ¬ ∃ r ∈ main true (some (remove_at [3, 2] (example_root [example_dir "sub"
            [example_file "a" 7, example_file "file_inventory.db" 3]]))) 6
          (main false (some (example_root [example_dir "sub"
            [example_file "a" 7, example_file "file_inventory.db" 3]])) 5 []),
        r.path = ".\\sub\\file_inventory.db".toList) :=
  ⟨⟨by decide, by decide, by decide, by decide, by decide⟩,
   ⟨by decide, rfl, by decide, by decide, by decide⟩⟩

/-! ## Idempotence of incremental scans -/

theorem update_row_of_refreshed (fd : WIN32_FIND_DATA) (t1 t2 : Int) (p : List Char)
    (r : Record) (hp : r.path = p) (h : refreshed fd t1 r) :
    update_row (file_size fd) (filetime_to_unix_time fd.ftLastWriteTime)
      (filetime_to_unix_time fd.ftLastAccessTime)
      (get_file_attributes_string fd.dwFileAttributes) t2 p r = { r with last_seen := t2 } := by
  obtain ⟨h1, h2, h3, h4, h5, _⟩ := h
  simp only [update_row, hp, if_true, ← h1, ← h2, ← h3, ← h4, ← h5]

theorem reconcile_all_again (obs : List (List Char × WIN32_FIND_DATA)) (t1 t2 : Int)
    (hn : (obs.map (·.1)).Nodup) :
    ∀ db : Store,
      (∀ o ∈ obs, o.1 ∈ paths db ∧ ∀ r ∈ db, r.path = o.1 → refreshed o.2 t1 r) →
      reconcile_all db obs t2 = db.map (touch (obs.map (·.1)) t2) := by
  induction obs with
  | nil =>
    intro db _
    have e : touch [] t2 = id := by funext r; simp [touch]
    rw [List.map_nil, e, List.map_id]; rfl
  | cons o obs ih =>
    intro db h
    rw [List.map_cons, List.nodup_cons] at hn
    have ho := h o (List.mem_cons_self _ _)
    rw [reconcile_all_cons, reconcile_of_mem db o.1 o.2 t2 ho.1]
    rw [ih hn.2]
    · rw [List.map_map]
      apply List.map_congr_left
      intro r hr
      simp only [Function.comp]
      by_cases hp : r.path = o.1
      · rw [update_row_of_refreshed o.2 t1 t2 o.1 r hp (ho.2 r hr hp)]
        simp only [touch, hp, List.map_cons, List.mem_cons, true_or, if_true]
        rw [if_neg hn.1]
      · rw [update_row_of_ne _ _ _ _ _ _ _ hp]
        simp only [touch, List.map_cons, List.mem_cons, hp, false_or]
    · intro o2 ho2
      have h2 := h o2 (List.mem_cons_of_mem _ ho2)
      have hne : o2.1 ≠ o.1 := by
        intro he
        exact hn.1 (he ▸ List.mem_map_of_mem _ ho2)
      constructor
      · have := paths_update_stmt db (file_size o.2) (filetime_to_unix_time o.2.ftLastWriteTime)
          (filetime_to_unix_time o.2.ftLastAccessTime)
          (get_file_attributes_string o.2.dwFileAttributes) t2 o.1
        unfold update_stmt at this
        rw [this]; exact h2.1
      · intro r hr hp
        obtain ⟨r0, hr0, rfl⟩ := List.mem_map.1 hr
        rw [update_row_path] at hp
        rw [update_row_of_ne _ _ _ _ _ _ _ (by rw [hp]; exact hne)]
        exact h2.2 r0 hr0 hp

/-- C3: for every store and every tree with pairwise distinct paths, a non-refresh scan at
t1 followed by a non-refresh scan of the same tree at t2 leaves the number of rows as it was
after the first scan, and every row equal to its counterpart after the first scan in every
column except possibly last_seen. The store need not have at most one row per path. -/
theorem C3_incremental_idempotence (db : Store) (root : Option (List Node)) (t1 t2 : Int)
    (hn : (observed_paths ['.'] root).Nodup) :
    (main false root t2 (main false root t1 db)).length = (main false root t1 db).length ∧
    List.Forall₂ (fun r1 r2 : Record => r2 = { r1 with last_seen := r2.last_seen })
      (main false root t1 db) (main false root t2 (main false root t1 db)) := by
  have h : main false root t2 (main false root t1 db) =
      (main false root t1 db).map (touch (observed_paths ['.'] root) t2) := by
    rw [main_eq false root t2, main_eq false root t1]
    simp only [Bool.false_eq_true, if_false]
    apply reconcile_all_again _ t1 t2 hn
    intro o ho
    exact ⟨mem_paths_reconcile_all _ _ _ (List.mem_map_of_mem _ ho) _,
      refreshed_reconcile_all _ t1 hn db o ho⟩
  rw [h]
  refine ⟨by simp, ?_⟩
  rw [List.forall₂_map_right_iff, List.forall₂_same]
  intro r _
  unfold touch
  split <;> rfl

/-- An instance of C3: a tree of a file and a directory with a nested file. -/
theorem C3_incremental_idempotence_witness :
    (main false (some (example_root [example_file "a" 7,
        example_dir "sub" [example_file "a" 1]])) 6
      (main false (some (example_root [example_file "a" 7,
        example_dir "sub" [example_file "a" 1]])) 5 [])).length = 3 :=
  (C3_incremental_idempotence [] (some (example_root [example_file "a" 7,
    example_dir "sub" [example_file "a" 1]])) 5 6 (by decide)).1.trans (by decide)

/-! ## Soft deletion and the frame of a scan -/

theorem reconcile_frame (db : Store) (p : List Char) (fd : WIN32_FIND_DATA) (t : Int) :
    ∃ extra : List Record, reconcile db p fd t =
      db.map (update_row (file_size fd) (filetime_to_unix_time fd.ftLastWriteTime)
        (filetime_to_unix_time fd.ftLastAccessTime)
        (get_file_attributes_string fd.dwFileAttributes) t p) ++ extra := by
  by_cases h : update_changes db p = 0
  · simp only [reconcile, h, if_true, insert_stmt, update_stmt]
    exact ⟨_, rfl⟩
  · simp only [reconcile, h, if_false, update_stmt]
    exact ⟨[], by simp⟩

theorem update_row_id (a b c : Int) (d : List Char) (e : Int) (p : List Char) (r : Record) :
    (update_row a b c d e p r).id = r.id := by
  unfold update_row; split <;> rfl

/-- A sequence of reconcile steps maps the rows of the store in place, keeping the id and the
path of each and leaving the rows at other paths alone, and appends rows. -/
theorem reconcile_all_frame (obs : List (List Char × WIN32_FIND_DATA)) (t : Int) :
    ∀ db : Store, ∃ (g : Record → Record) (extra : List Record),
      reconcile_all db obs t = db.map g ++ extra ∧
      ∀ r : Record, (g r).id = r.id ∧ (g r).path = r.path ∧
        (r.path ∉ obs.map (·.1) → g r = r) := by
  induction obs with
  | nil => intro db; exact ⟨id, [], by simp [reconcile_all], fun r => ⟨rfl, rfl, fun _ => rfl⟩⟩
  | cons o obs ih =>
    intro db
    obtain ⟨e0, h0⟩ := reconcile_frame db o.1 o.2 t
    obtain ⟨g, e, h1, h2⟩ := ih (reconcile db o.1 o.2 t)
    refine ⟨g ∘ update_row (file_size o.2) (filetime_to_unix_time o.2.ftLastWriteTime)
        (filetime_to_unix_time o.2.ftLastAccessTime)
        (get_file_attributes_string o.2.dwFileAttributes) t o.1, e0.map g ++ e, ?_, ?_⟩
    · rw [reconcile_all_cons, h1, h0]
      simp [List.map_append, List.map_map]
    · intro r
      simp only [Function.comp]
      refine ⟨?_, ?_, ?_⟩
      · rw [(h2 _).1, update_row_id]
      · rw [(h2 _).2.1, update_row_path]
      · intro hr
        rw [List.map_cons, List.mem_cons, not_or] at hr
        rw [update_row_of_ne _ _ _ _ _ _ _ hr.1]
        exact (h2 r).2.2 hr.2

/-- C5: a scan in either mode removes no row: every row of the store is still there, at the
same position with the same id and path. A row whose path is not observed in the scanned
tree is unchanged in every column other than is_deleted, and in non-refresh mode it is
unchanged altogether. -/
theorem C5_soft_deletion_frame (db : Store) (root : Option (List Node)) (t : Int)
    (refresh_mode : Bool) :
    db.length ≤ (main refresh_mode root t db).length ∧
    ∀ (i : Nat) (r : Record), db[i]? = some r →
      ∃ r2 : Record, (main refresh_mode root t db)[i]? = some r2 ∧
        r2.id = r.id ∧ r2.path = r.path ∧
        (r.path ∉ observed_paths ['.'] root →
          r2 = { r with is_deleted := r2.is_deleted } ∧ (refresh_mode = false → r2 = r)) := by
  obtain ⟨g, e, h1, h2⟩ := reconcile_all_frame (observed ['.'] root) t db
  rw [main_eq, h1]
  cases refresh_mode
  · refine ⟨by simp, ?_⟩
    intro i r hi
    have hlt : i < db.length := (List.getElem?_eq_some_iff.1 hi).1
    refine ⟨g r, ?_, (h2 r).1, (h2 r).2.1, ?_⟩
    · simp only [Bool.false_eq_true, if_false]
      rw [List.getElem?_append_left (by simpa using hlt), List.getElem?_map, hi]; rfl
    · intro hr
      rw [(h2 r).2.2 hr]
      exact ⟨rfl, fun _ => rfl⟩
  · refine ⟨by simp [mark_deleted_stmt], ?_⟩
    intro i r hi
    have hlt : i < db.length := (List.getElem?_eq_some_iff.1 hi).1
    refine ⟨mark_deleted_row t (g r), ?_, ?_, ?_, ?_⟩
    · simp only [if_true, mark_deleted_stmt, List.map_append, List.map_map]
      rw [List.getElem?_append_left (by simpa using hlt), List.getElem?_map, hi]; rfl
    · rw [← (h2 r).1]; unfold mark_deleted_row; split <;> rfl
    · rw [← (h2 r).2.1]; unfold mark_deleted_row; split <;> rfl
    · intro hr
      rw [(h2 r).2.2 hr]
      refine ⟨?_, fun h => by simp at h⟩
      unfold mark_deleted_row; split <;> rfl

/-- An instance of C5: an incremental scan of a tree without the path of a row leaves the
row as it was. -/
theorem C5_soft_deletion_frame_witness :
    (main false (some (example_root [example_file "a" 7])) 9 [example_row 1 "gone" ".\\gone"])[0]? =
      some (example_row 1 "gone" ".\\gone") := by
  obtain ⟨r2, h1, _, _, h4⟩ := (C5_soft_deletion_frame [example_row 1 "gone" ".\\gone"]
    (some (example_root [example_file "a" 7])) 9 false).2 0 (example_row 1 "gone" ".\\gone") rfl
  rw [h1, (h4 (by decide)).2 rfl]

/-! ## Walker coverage -/

theorem full_path_of_fit (path name : List Char)
    (h : (join_path path name).length < MAX_PATH) :
    full_path path name = join_path path name := by
  unfold full_path snprintf
  apply List.take_of_length_le
  unfold join_path MAX_PATH at h
  unfold MAX_PATH
  omega

theorem all_listable_append (a b : List (List Char × Node)) :
    all_listable (a ++ b) ↔ all_listable a ∧ all_listable b := by
  simp only [all_listable, List.mem_append]
  constructor
  · intro h; exact ⟨fun x hx => h x (Or.inl hx), fun x hx => h x (Or.inr hx)⟩
  · rintro ⟨h1, h2⟩ x (hx | hx)
    · exact h1 x hx
    · exact h2 x hx

theorem all_fit_append (a b : List (List Char × Node)) :
    all_fit (a ++ b) ↔ all_fit a ∧ all_fit b := by
  simp only [all_fit, List.mem_append]
  constructor
  · intro h; exact ⟨fun x hx => h x (Or.inl hx), fun x hx => h x (Or.inr hx)⟩
  · rintro ⟨h1, h2⟩ x (hx | hx)
    · exact h1 x hx
    · exact h2 x hx

mutual
theorem observed_entries_eq_walked (path : List Char) :
    ∀ es : List Node, all_listable (walked_entries path es) → all_fit (walked_entries path es) →
      observed_entries path es = (walked_entries path es).map as_observation
  | [] => by
    intro _ _
    simp [observed_entries, walked_entries]
  | e :: rest => by
    intro hl hf
    rw [walked_entries, all_listable_append] at hl
    rw [walked_entries, all_fit_append] at hf
    rw [observed_entries, walked_entries, List.map_append,
      observed_entry_eq_walked path e hl.1 hf.1,
      observed_entries_eq_walked path rest hl.2 hf.2]
theorem observed_entry_eq_walked (path : List Char) :
    ∀ e : Node, all_listable (walked_entry path e) → all_fit (walked_entry path e) →
      observed_entry path e = (walked_entry path e).map as_observation
  | Node.mk fd l => by
    intro hl hf
    rw [observed_entry]
    rw [walked_entry] at hl hf ⊢
    by_cases h1 : fd.cFileName = ['.'] ∨ fd.cFileName = ['.', '.']
    · have h2 : fd.cFileName = ['.'] ∨ fd.cFileName = ['.', '.'] ∨ fd.cFileName = DB_NAME := by
        rcases h1 with h | h
        · exact Or.inl h
        · exact Or.inr (Or.inl h)
      rw [if_pos h1, if_pos h2]; rfl
    · by_cases h3 : fd.cFileName = DB_NAME
      · rw [if_neg h1, if_pos h3, if_pos (Or.inr (Or.inr h3))]; rfl
      · have h2 : ¬ (fd.cFileName = ['.'] ∨ fd.cFileName = ['.', '.'] ∨
            fd.cFileName = DB_NAME) := by
          rintro (h | h | h)
          · exact h1 (Or.inl h)
          · exact h1 (Or.inr h)
          · exact h3 h
        rw [if_neg h2] at hl hf
        rw [if_neg h1, if_neg h3, if_neg h2]
        have hfit := hf _ (List.mem_cons_self _ _)
        have e1 := full_path_of_fit path fd.cFileName hfit
        simp only [e1]
        by_cases hd : is_dir fd = true
        · have hd2 : fd.dwFileAttributes &&& FILE_ATTRIBUTE_DIRECTORY ≠ 0 := by
            simpa [is_dir] using hd
          have hsome := hl _ (List.mem_cons_self _ _) hd
          rw [if_pos hd2]
          rw [if_pos hd] at hl hf ⊢
          cases l with
          | none => simp [Node.listing] at hsome
          | some sub =>
            rw [walked] at hl hf
            have hl2 : all_listable (walked_entries (join_path path fd.cFileName) sub) :=
              fun x hx => hl x (List.mem_cons_of_mem _ hx)
            have hf2 : all_fit (walked_entries (join_path path fd.cFileName) sub) :=
              fun x hx => hf x (List.mem_cons_of_mem _ hx)
            rw [observed, walked,
              observed_entries_eq_walked (join_path path fd.cFileName) sub hl2 hf2]
            rfl
        · have hd2 : ¬ fd.dwFileAttributes &&& FILE_ATTRIBUTE_DIRECTORY ≠ 0 := by
            simpa [is_dir] using hd
          rw [if_neg hd2, if_neg hd]
          rfl
end

/-- C6 (amended): on a tree in which every reconciled directory can be listed and every
joined path fits the path buffer, scan_directory reconciles, once each and in listing order,
exactly the entries at any depth that are neither pseudo-entries nor named file_inventory.db
and do not lie below an entry so named (a file or directory named file_inventory.db is
skipped at every depth, not only the store file in the scan root), each under the path of
its parent joined with its name by a backslash, descending into every reconciled
subdirectory. -/
theorem C6_walker_coverage (db : Store) (path : List Char) (t : Int) (es : List Node)
    (hl : all_listable (walked_entries path es)) (hf : all_fit (walked_entries path es)) :
    observed path (some es) = (walked_entries path es).map as_observation ∧
    scan_directory db path t (some es) =
      reconcile_all db ((walked_entries path es).map as_observation) t := by
  have h : observed path (some es) = (walked_entries path es).map as_observation := by
    rw [observed]; exact observed_entries_eq_walked path es hl hf
  exact ⟨h, by rw [scan_directory_eq, h]⟩

/-- An instance of C6: a root with the pseudo-entries, the store file, a file and a directory
with a nested file. -/
theorem C6_walker_coverage_witness :
    scan_directory [] ['.'] 5 (some (example_root [example_file "a" 7,
        example_dir "sub" [example_file "b" 1]])) =
      reconcile_all [] [(".\\a".toList, example_entry "a" FILE_ATTRIBUTE_ARCHIVE 7),
        (".\\sub".toList, example_entry "sub" FILE_ATTRIBUTE_DIRECTORY 0),
        (".\\sub\\b".toList, example_entry "b" FILE_ATTRIBUTE_ARCHIVE 1)] 5 :=
  (C6_walker_coverage [] ['.'] 5 (example_root [example_file "a" 7,
    example_dir "sub" [example_file "b" 1]]) (by decide) (by decide)).2

/-- C6 as stated fails: a file named file_inventory.db in a subdirectory is an entry the
claim counts as covered (it is not in the scan root), the tree is listable and its paths fit,
yet the walker does not reconcile it, and the store differs from the claimed one. -/
theorem C6_walker_coverage_fails :
    all_listable (claimed_entries true ['.']
      (example_root [example_dir "sub" [example_file "file_inventory.db" 3]])) ∧
    all_fit (claimed_entries true ['.']
      (example_root [example_dir "sub" [example_file "file_inventory.db" 3]])) ∧
    (claimed_entries true ['.']
      (example_root [example_dir "sub" [example_file "file_inventory.db" 3]])).map (·.1) =
      [".\\sub".toList, ".\\sub\\file_inventory.db".toList] ∧
    observed_paths ['.']
      (some (example_root [example_dir "sub" [example_file "file_inventory.db" 3]])) =
      [".\\sub".toList] ∧
    scan_directory [] ['.'] 5
      (some (example_root [example_dir "sub" [example_file "file_inventory.db" 3]])) ≠
      reconcile_all [] ((claimed_entries true ['.']
        (example_root [example_dir "sub" [example_file "file_inventory.db" 3]])).map
          as_observation) 5 := by
  refine ⟨by decide, by decide, by decide, by decide, by decide⟩

/-! ## The directory flag -/

/-- C7 fails on the code: a path first observed as a file and then, in the most recent scan,
as a directory keeps is_directory = 0, because the update statement does not write the
column (only the insert statement does), while the attribute string of the same row is
refreshed to "D". -/
theorem C7_is_directory_not_refreshed :
    (".\\x".toList, example_entry "x" FILE_ATTRIBUTE_DIRECTORY 0) ∈
      observed ['.'] (some (example_root [example_dir "x" []])) ∧
    is_dir (example_entry "x" FILE_ATTRIBUTE_DIRECTORY 0) = true ∧
    run [] [⟨false, some (example_root [example_file "x" 7]), 5⟩,
        ⟨false, some (example_root [example_dir "x" []]), 6⟩] =
      [{ id := 1, name := ['x'], path := ".\\x".toList, extension := [], size := 0,
         is_directory := 0, created_time := 0, modified_time := 0, accessed_time := 0,
         attributes := ['D'], is_deleted := 0, last_seen := 6 }] := by
  refine ⟨by decide, by decide, by decide⟩

/-! ## Extension derivation -/

theorem strrchr_of_not_mem (s : List Char) (c : Char) (h : c ∉ s) : strrchr s c = none := by
  induction s with
  | nil => rfl
  | cons x xs ih =>
    rw [List.mem_cons, not_or] at h
    simp [strrchr, ih h.2, Ne.symm h.1]

theorem strrchr_append (pre suf : List Char) (c : Char) (h : c ∉ suf) :
    strrchr (pre ++ c :: suf) c = some pre.length := by
  induction pre with
  | nil => simp [strrchr, strrchr_of_not_mem suf c h]
  | cons x xs ih => simp [strrchr, ih]

theorem copy_lower_eq (bound : Nat) (src : List Char) :
    ∀ i : Nat, copy_lower bound src i = (src.take (bound - i)).map tolower := by
  induction src with
  | nil => intro i; simp [copy_lower]
  | cons c src ih =>
    intro i
    by_cases h : i < bound
    · have e : bound - i = (bound - (i + 1)) + 1 := by omega
      rw [copy_lower, if_pos h, ih, e, List.take_succ_cons, List.map_cons]
    · have e : bound - i = 0 := by omega
      rw [copy_lower, if_neg h, e]; rfl

/-- C8 (amended): with the 256-byte buffer of the walker, get_file_extension yields the
first 255 characters of the substring after the last '.' of the name, each lowercased
by tolower, hence the whole lowercased substring when it has at most 255 characters; it
yields the empty string when the name has no '.' or its only '.' is the first character;
"report.TXT" gives "txt", ".gitignore" gives "", "noext" gives "", "a.b.c" gives "c". -/
theorem C8_extension_derivation (n : List Char) :
    ('.' ∉ n → get_file_extension n 256 = []) ∧
    (∀ suf : List Char, n = '.' :: suf → '.' ∉ suf → get_file_extension n 256 = []) ∧
    (∀ pre suf : List Char, n = pre ++ '.' :: suf → pre ≠ [] → '.' ∉ suf →
      get_file_extension n 256 = (suf.take 255).map tolower ∧
      (suf.length ≤ 255 → get_file_extension n 256 = suf.map tolower)) ∧
    get_file_extension "report.TXT".toList 256 = "txt".toList ∧
    get_file_extension ".gitignore".toList 256 = [] ∧
    get_file_extension "noext".toList 256 = [] ∧
    get_file_extension "a.b.c".toList 256 = "c".toList := by
  refine ⟨?_, ?_, ?_, by decide, by decide, by decide, by decide⟩
  · intro h
    simp [get_file_extension, strrchr_of_not_mem n '.' h]
  · intro suf hn hs
    subst hn
    have := strrchr_append [] suf '.' hs
    simp only [List.nil_append, List.length_nil] at this
    simp [get_file_extension, this]
  · intro pre suf hn hp hs
    subst hn
    have hlen : pre.length ≠ 0 := by
      intro h0; exact hp (List.length_eq_zero.1 h0)
    have hdrop : (pre ++ '.' :: suf).drop (pre.length + 1) = suf := by
      rw [List.drop_append_eq_append_drop]
      simp
    have key : get_file_extension (pre ++ '.' :: suf) 256 = (suf.take 255).map tolower := by
      simp only [get_file_extension, strrchr_append pre suf '.' hs, ne_eq, hlen,
        not_false_eq_true, if_true, hdrop, copy_lower_eq]
      rfl
    refine ⟨key, ?_⟩
    intro hl
    rw [key, List.take_of_length_le hl]

/-- An instance of C8 at the name "Makefile.IN". -/
theorem C8_extension_derivation_witness :
    get_file_extension "Makefile.IN".toList 256 = "in".toList :=
  ((C8_extension_derivation "Makefile.IN".toList).2.2.1 "Makefile".toList "IN".toList
    (by decide) (by decide) (by decide)).1

set_option maxRecDepth 100000 in
/-- C8 as stated fails on a name whose extension has 256 bytes: only 255 are kept. -/
theorem C8_extension_truncated :
    example_long_name.length = 258 ∧
    example_long_name = ['a'] ++ '.' :: example_long_name.drop 2 ∧
    '.' ∉ example_long_name.drop 2 ∧
    (get_file_extension example_long_name 256).length = 255 ∧
    get_file_extension example_long_name 256 ≠ (example_long_name.drop 2).map tolower := by
  decide

/-! ## Attribute encoding -/

theorem and_two_pow_ne_zero (n k : Nat) : (n &&& 2 ^ k ≠ 0) ↔ n.testBit k = true := by
  rw [Nat.and_two_pow]
  cases n.testBit k <;> simp

theorem flag_char (n k : Nat) (c : Char) :
    (if n &&& 2 ^ k ≠ 0 then [c] else []) = if n.testBit k then [c] else [] := by
  by_cases h : n.testBit k = true
  · rw [if_pos ((and_two_pow_ne_zero n k).2 h), if_pos h]
  · rw [if_neg (fun h1 => h ((and_two_pow_ne_zero n k).1 h1)), if_neg h]

/-- The attribute string written from the six flag bits. -/
theorem get_file_attributes_string_eq (attrs : Nat) :
    get_file_attributes_string attrs =
      (if attrs.testBit 0 then ['R'] else []) ++ (if attrs.testBit 1 then ['H'] else []) ++
      (if attrs.testBit 2 then ['S'] else []) ++ (if attrs.testBit 4 then ['D'] else []) ++
      (if attrs.testBit 5 then ['A'] else []) ++ (if attrs.testBit 7 then ['N'] else []) := by
  rw [← flag_char attrs 0, ← flag_char attrs 1, ← flag_char attrs 2, ← flag_char attrs 4,
    ← flag_char attrs 5, ← flag_char attrs 7]
  rfl

/-- C9: the attribute string is exactly the subsequence of "RHSDAN" that keeps the letter
of each of the bits READONLY (bit 0), HIDDEN (bit 1), SYSTEM (bit 2), DIRECTORY (bit 4),
ARCHIVE (bit 5), NORMAL (bit 7) that is set in the attribute word: each letter occurs iff its
bit is set, at most once, in the order R,H,S,D,A,N; the string is empty when none of the six
bits is set, and two words with the same six bits give the same string. -/
theorem C9_attribute_encoding (attrs : Nat) :
    get_file_attributes_string attrs =
      ((['R', 'H', 'S', 'D', 'A', 'N'].zip [0, 1, 2, 4, 5, 7]).filter
        (fun ck => attrs.testBit ck.2)).map (·.1) ∧
    (get_file_attributes_string attrs).Sublist ['R', 'H', 'S', 'D', 'A', 'N'] ∧
    (get_file_attributes_string attrs).Nodup ∧
    ((attrs &&& FILE_ATTRIBUTE_READONLY ≠ 0 ↔ attrs.testBit 0) ∧
      (attrs &&& FILE_ATTRIBUTE_HIDDEN ≠ 0 ↔ attrs.testBit 1) ∧
      (attrs &&& FILE_ATTRIBUTE_SYSTEM ≠ 0 ↔ attrs.testBit 2) ∧
      (attrs &&& FILE_ATTRIBUTE_DIRECTORY ≠ 0 ↔ attrs.testBit 4) ∧
      (attrs &&& FILE_ATTRIBUTE_ARCHIVE ≠ 0 ↔ attrs.testBit 5) ∧
      (attrs &&& FILE_ATTRIBUTE_NORMAL ≠ 0 ↔ attrs.testBit 7)) ∧
    (('R' ∈ get_file_attributes_string attrs ↔ attrs.testBit 0) ∧
      ('H' ∈ get_file_attributes_string attrs ↔ attrs.testBit 1) ∧
      ('S' ∈ get_file_attributes_string attrs ↔ attrs.testBit 2) ∧
      ('D' ∈ get_file_attributes_string attrs ↔ attrs.testBit 4) ∧
      ('A' ∈ get_file_attributes_string attrs ↔ attrs.testBit 5) ∧
      ('N' ∈ get_file_attributes_string attrs ↔ attrs.testBit 7)) ∧
    ((∀ k ∈ [0, 1, 2, 4, 5, 7], attrs.testBit k = false) →
      get_file_attributes_string attrs = []) ∧
    (∀ attrs2 : Nat, (∀ k ∈ [0, 1, 2, 4, 5, 7], attrs2.testBit k = attrs.testBit k) →
      get_file_attributes_string attrs2 = get_file_attributes_string attrs) := by
  have hbits : (attrs &&& FILE_ATTRIBUTE_READONLY ≠ 0 ↔ attrs.testBit 0) ∧
      (attrs &&& FILE_ATTRIBUTE_HIDDEN ≠ 0 ↔ attrs.testBit 1) ∧
      (attrs &&& FILE_ATTRIBUTE_SYSTEM ≠ 0 ↔ attrs.testBit 2) ∧
      (attrs &&& FILE_ATTRIBUTE_DIRECTORY ≠ 0 ↔ attrs.testBit 4) ∧
      (attrs &&& FILE_ATTRIBUTE_ARCHIVE ≠ 0 ↔ attrs.testBit 5) ∧
      (attrs &&& FILE_ATTRIBUTE_NORMAL ≠ 0 ↔ attrs.testBit 7) :=
    ⟨and_two_pow_ne_zero attrs 0, and_two_pow_ne_zero attrs 1, and_two_pow_ne_zero attrs 2,
      and_two_pow_ne_zero attrs 4, and_two_pow_ne_zero attrs 5, and_two_pow_ne_zero attrs 7⟩
  refine ⟨?_, ?_, ?_, hbits, ?_, ?_, ?_⟩
  · rw [get_file_attributes_string_eq]
    simp only [List.zip, List.zipWith, List.filter]
    cases attrs.testBit 0 <;> cases attrs.testBit 1 <;> cases attrs.testBit 2 <;>
      cases attrs.testBit 4 <;> cases attrs.testBit 5 <;> cases attrs.testBit 7 <;> rfl
  · rw [get_file_attributes_string_eq]
    cases attrs.testBit 0 <;> cases attrs.testBit 1 <;> cases attrs.testBit 2 <;>
      cases attrs.testBit 4 <;> cases attrs.testBit 5 <;> cases attrs.testBit 7 <;> decide
  · rw [get_file_attributes_string_eq]
    cases attrs.testBit 0 <;> cases attrs.testBit 1 <;> cases attrs.testBit 2 <;>
      cases attrs.testBit 4 <;> cases attrs.testBit 5 <;> cases attrs.testBit 7 <;> decide
  · rw [get_file_attributes_string_eq]
    cases attrs.testBit 0 <;> cases attrs.testBit 1 <;> cases attrs.testBit 2 <;>
      cases attrs.testBit 4 <;> cases attrs.testBit 5 <;> cases attrs.testBit 7 <;> decide
  · intro h
    rw [get_file_attributes_string_eq]
    simp only [List.mem_cons, List.mem_singleton, forall_eq_or_imp, forall_eq] at h
    simp [h]
  · intro attrs2 h
    rw [get_file_attributes_string_eq, get_file_attributes_string_eq]
    simp only [List.mem_cons, List.mem_singleton, forall_eq_or_imp, forall_eq] at h
    simp [h]

/-- An instance of C9: a read-only archived directory, with and without unrecognized bits. -/
theorem C9_attribute_encoding_witness :
    get_file_attributes_string 0x31 = ['R', 'D', 'A'] ∧
    get_file_attributes_string 0x831 = get_file_attributes_string 0x31 :=
  ⟨by decide, (C9_attribute_encoding 0x31).2.2.2.2.2.2 0x831 (by decide)⟩

/-! ## Time normalization -/

theorem wrap64_of_range (x : Int) (h1 : -2 ^ 63 ≤ x) (h2 : x < 2 ^ 63) : wrap64 x = x := by
  unfold wrap64; omega

/-- C10: for a FILETIME whose 64-bit value v = high * 2^32 + low is at least
116444736000000000 and below 2^63, the result s of filetime_to_unix_time is the whole number
of seconds since 1970-01-01T00:00:00Z: s * 10^7 <= v - 116444736000000000 < (s + 1) * 10^7;
v = 116444736000000000 gives 0 and v = 125911584000000000 gives 946684800. -/
theorem C10_filetime_to_unix_time (ft : FILETIME)
    (h1 : 116444736000000000 ≤ ft.dwHighDateTime * 2 ^ 32 + ft.dwLowDateTime)
    (h2 : ft.dwHighDateTime * 2 ^ 32 + ft.dwLowDateTime < 2 ^ 63) :
    (filetime_to_unix_time ft * 10000000 ≤
        ((ft.dwHighDateTime * 2 ^ 32 + ft.dwLowDateTime : Nat) : Int) - 116444736000000000 ∧
      ((ft.dwHighDateTime * 2 ^ 32 + ft.dwLowDateTime : Nat) : Int) - 116444736000000000 <
        (filetime_to_unix_time ft + 1) * 10000000) ∧
    (27111902 * 2 ^ 32 + 3577643008 = 116444736000000000 ∧
      filetime_to_unix_time ⟨3577643008, 27111902⟩ = 0) ∧
    (29316075 * 2 ^ 32 + 627916800 = 125911584000000000 ∧
      filetime_to_unix_time ⟨627916800, 29316075⟩ = 946684800) := by
  refine ⟨?_, by decide, by decide⟩
  unfold filetime_to_unix_time
  have e1 : wrap64 ((ft.dwHighDateTime : Int) * 2 ^ 32 + ft.dwLowDateTime) =
      (ft.dwHighDateTime : Int) * 2 ^ 32 + ft.dwLowDateTime := by
    apply wrap64_of_range <;> omega
  simp only [e1]
  have e2 : wrap64 ((ft.dwHighDateTime : Int) * 2 ^ 32 + ft.dwLowDateTime - 116444736000000000) =
      (ft.dwHighDateTime : Int) * 2 ^ 32 + ft.dwLowDateTime - 116444736000000000 := by
    apply wrap64_of_range <;> omega
  rw [e2, Int.tdiv_eq_ediv (by omega) (by omega)]
  have e3 : wrap64 (((ft.dwHighDateTime : Int) * 2 ^ 32 + ft.dwLowDateTime - 116444736000000000)
      / 10000000) = ((ft.dwHighDateTime : Int) * 2 ^ 32 + ft.dwLowDateTime - 116444736000000000)
      / 10000000 := by
    apply wrap64_of_range <;> omega
  rw [e3]
  push_cast
  omega

/-- An instance of C10: one second and a half after the epoch gives one second. -/
theorem C10_filetime_to_unix_time_witness :
    116444736000000000 ≤ 27111902 * 2 ^ 32 + 3592643008 ∧
    27111902 * 2 ^ 32 + 3592643008 < 2 ^ 63 ∧
    filetime_to_unix_time ⟨3592643008, 27111902⟩ = 1 ∧
    (filetime_to_unix_time ⟨3592643008, 27111902⟩ * 10000000 ≤
        ((27111902 * 2 ^ 32 + 3592643008 : Nat) : Int) - 116444736000000000 ∧
      ((27111902 * 2 ^ 32 + 3592643008 : Nat) : Int) - 116444736000000000 <
        (filetime_to_unix_time ⟨3592643008, 27111902⟩ + 1) * 10000000) :=
  ⟨by decide, by decide, by decide,
    (C10_filetime_to_unix_time ⟨3592643008, 27111902⟩ (by decide) (by decide)).1⟩

end FileScanner
